import Mathlib

/-!
Verification of the asynchronous-task executor in `misc/Executor.c`
(job state machine, job list, submission, cancellation, shutdown).

Shallow embedding conventions:
* `pthread_t` and opaque payload pointers are modelled as `Nat` identifiers.
* The caller-supplied `run` function is a parameter `run : Nat → Int × Option Nat`
  giving the status and optional result for a payload.
* The caller-supplied `halt` function is a parameter `halt : Nat → Nat → Int`
  (payload, thread ↦ status); `pthread_kill` is a parameter
  `kill : Nat → Nat → Int` (thread, signal ↦ status).
* Error numbers are the usual Linux values.
-/

/-- Linux errno value for EPERM. -/
def EPERM : Int := 1

/-- Linux errno value for ESRCH. -/
def ESRCH : Int := 3

/-- Signal number of SIGTERM. -/
def SIGTERM : Nat := 15

/-- JobState enumeration from Executor.c. -/
inductive JobState where
  | JOB_INITIALIZED
  | JOB_EXECUTING
  | JOB_COMPLETED
deriving DecidableEq, Repr

open JobState

/-- Numeric rank of a job state, used to express forward-only movement. -/
def JobState.rank : JobState → Nat
  | JOB_INITIALIZED => 0
  | JOB_EXECUTING => 1
  | JOB_COMPLETED => 2

/-- The fields of `struct job` relevant to its state machine: the lifecycle
state, the cancellation flag, the recorded worker thread and the opaque
payload pointer (identifier). -/
structure Job where
  state : JobState
  canceled : Bool
  thread : Nat
  obj : Nat
deriving DecidableEq, Repr

/-- Result of one call to `job_run` on the worker thread: the final job
record, the published status and result, the canceled flag passed to
`future_setResult`, and whether the run function was invoked. -/
structure JobRunResult where
  job : Job
  status : Int
  result : Option Nat
  canceledFlag : Bool
  ranRun : Bool
deriving DecidableEq, Repr

/-- Embedding of the job-local part of `job_run` (Executor.c lines 216-246):
under the job lock, if `canceled` is still false, record the worker thread,
move to EXECUTING, invoke the run function unlocked, and move to COMPLETED;
otherwise leave the job untouched. In both cases the status, result and the
final value of `canceled` are published to the future via `future_setResult`. -/
def job_run (run : Nat → Int × Option Nat) (self : Nat) (job : Job) :
    JobRunResult :=
  if job.canceled = false then
    let job1 : Job := { job with thread := self, state := JOB_EXECUTING }
    let sr := run job1.obj
    let job2 : Job := { job1 with state := JOB_COMPLETED }
    ⟨job2, sr.1, sr.2, job2.canceled, true⟩
  else
    ⟨job, 0, none, job.canceled, false⟩

/-- Result of `job_cancel`: the updated job, the returned status, whether the
halt function was invoked, and whether an error was logged for a failing halt
function. -/
structure JobCancelResult where
  job : Job
  status : Int
  haltInvoked : Bool
  logged : Bool
deriving DecidableEq, Repr

/-- Embedding of `job_cancel` (Executor.c lines 258-288): a COMPLETED job is
untouched and the call succeeds; otherwise `canceled` is set; an INITIALIZED
job needs nothing more, while for an EXECUTING job the halt function is
invoked with the payload and the recorded thread and its status is returned
(logged when non-zero). -/
def job_cancel (halt : Nat → Nat → Int) (job : Job) : JobCancelResult :=
  if job.state = JOB_COMPLETED then
    ⟨job, 0, false, false⟩
  else
    let job1 : Job := { job with canceled := true }
    if job.state = JOB_INITIALIZED then
      ⟨job1, 0, false, false⟩
    else
      let st := halt job.obj job.thread
      ⟨job1, st, true, decide (st ≠ 0)⟩

/-- Events of `job_cancel` on its own mutex and on the halt function, in
program order, used to state that the lock is released before halting. -/
inductive CancelEv where
  | lock
  | unlock
  | setCanceled
  | callHalt
deriving DecidableEq, Repr

/-- Mutex/halt event trace of `job_cancel`, following Executor.c lines
258-288: the lock is taken, `canceled` is possibly set, the lock is released,
and only then (for an EXECUTING job) is the halt function called. -/
def job_cancelTrace (job : Job) : List CancelEv :=
  if job.state = JOB_COMPLETED then
    [CancelEv.lock, CancelEv.unlock]
  else if job.state = JOB_INITIALIZED then
    [CancelEv.lock, CancelEv.setCanceled, CancelEv.unlock]
  else
    [CancelEv.lock, CancelEv.setCanceled, CancelEv.unlock, CancelEv.callHalt]

/-- Embedding of `job_defaultHaltFunc` (Executor.c lines 77-109): status of
the call, whether an error was logged, and the thread/signal pair passed to
`pthread_kill`. -/
structure HaltFuncResult where
  status : Int
  logged : Bool
  sentThread : Nat
  sentSignal : Nat
deriving DecidableEq, Repr

/-- Embedding of `job_defaultHaltFunc`: deliver SIGTERM to the job's thread
via `pthread_kill` (modelled by the parameter `kill`); ESRCH is converted to
success, any other failure is logged and returned. -/
def job_defaultHaltFunc (kill : Nat → Nat → Int) (obj : Nat) (thread : Nat) :
    HaltFuncResult :=
  let st := kill thread SIGTERM
  if st ≠ 0 then
    if st = ESRCH then ⟨0, false, thread, SIGTERM⟩
    else ⟨st, true, thread, SIGTERM⟩
  else ⟨st, false, thread, SIGTERM⟩

/-- One atomic mutation of a job's record by the code of Executor.c: the
lock-protected prologue of `job_run` (check `canceled`, record the thread,
move to EXECUTING), its epilogue (move to COMPLETED after the run function
returns), and the mutation performed by `job_cancel` in each of its branches. -/
inductive JobStep : Job → Job → Prop where
  | startExec (j : Job) (t : Nat) (hs : j.state = JOB_INITIALIZED)
      (hc : j.canceled = false) :
      JobStep j { j with thread := t, state := JOB_EXECUTING }
  | finishExec (j : Job) (hs : j.state = JOB_EXECUTING) :
      JobStep j { j with state := JOB_COMPLETED }
  | cancelDone (j : Job) (hs : j.state = JOB_COMPLETED) : JobStep j j
  | cancelActive (j : Job) (hs : j.state ≠ JOB_COMPLETED) :
      JobStep j { j with canceled := true }

/-- Reflexive-transitive closure of `JobStep`: any interleaving of worker
steps and cancel calls. -/
def JobSteps : Job → Job → Prop := Relation.ReflTransGen JobStep


/-! ### Claims about the job state machine -/

/-- Fixed run function used in concrete counterexamples and witnesses. -/
def runZero : Nat → Int × Option Nat := fun _ => (0, none)

/-- Fixed halt function used in concrete witnesses. -/
def haltZero : Nat → Nat → Int := fun _ _ => 0

/-- C1 (counterexample): for a job canceled while still INITIALIZED, the
skip path of `job_run` does not mark the job COMPLETED — the state is left
at JOB_INITIALIZED, refuting the claim's "the worker marks the job
COMPLETED". -/
theorem job_run_skip_not_completed :
    (job_run runZero 7 ⟨JOB_INITIALIZED, true, 0, 0⟩).job.state ≠
      JOB_COMPLETED := by
  decide

/-- C1 (amended): if `canceled` is true at the initial check of `job_run`,
the run function is never invoked, the job record is left entirely unchanged
(its state stays JOB_INITIALIZED; it is not marked COMPLETED), and the future
is published with status 0, a null result and the canceled indication set. -/
theorem job_run_skip_path (run : Nat → Int × Option Nat) (self : Nat)
    (job : Job) (hc : job.canceled = true) :
    job_run run self job = ⟨job, 0, none, true, false⟩ := by
  simp [job_run, hc]

/-- C1 witness: the amended skip-path theorem at a concrete canceled job. -/
theorem job_run_skip_path_witness :
    job_run runZero 7 ⟨JOB_INITIALIZED, true, 0, 0⟩ =
      ⟨⟨JOB_INITIALIZED, true, 0, 0⟩, 0, none, true, false⟩ :=
  job_run_skip_path runZero 7 ⟨JOB_INITIALIZED, true, 0, 0⟩ rfl

/-- Every state's rank is at most that of JOB_COMPLETED. -/
theorem rank_le_two (s : JobState) : s.rank ≤ 2 := by
  cases s <;> simp [JobState.rank]

/-- Rank never decreases across a single step. -/
theorem jobStep_rank_mono {j j' : Job} (h : JobStep j j') :
    j.state.rank ≤ j'.state.rank := by
  cases h with
  | startExec t hs hc => simp [hs, JobState.rank]
  | finishExec hs => exact rank_le_two _
  | cancelDone hs => exact le_refl _
  | cancelActive hs => exact le_refl _

/-- Rank never decreases across a sequence of steps. -/
theorem jobSteps_rank_mono {j j' : Job} (h : JobSteps j j') :
    j.state.rank ≤ j'.state.rank := by
  induction h with
  | refl => exact le_refl _
  | tail _ hstep ih => exact le_trans ih (jobStep_rank_mono hstep)

/-- A sequence of steps from an INITIALIZED job to a COMPLETED job passes
through an EXECUTING state. -/
theorem jobSteps_through_executing : ∀ {j j' : Job}, JobSteps j j' →
    j.state = JOB_INITIALIZED → j'.state = JOB_COMPLETED →
    ∃ k, JobSteps j k ∧ JobSteps k j' ∧ k.state = JOB_EXECUTING := by
  intro j j' h
  induction h using Relation.ReflTransGen.head_induction_on with
  | refl =>
    intro hi hcpl
    rw [hi] at hcpl
    exact absurd hcpl (by decide)
  | head hstep hsteps ih =>
    intro hi hcpl
    cases hstep with
    | startExec t hs hc =>
      exact ⟨_, Relation.ReflTransGen.single (JobStep.startExec _ t hs hc),
        hsteps, rfl⟩
    | finishExec hs =>
      rw [hi] at hs
      exact absurd hs (by decide)
    | cancelDone hs =>
      rw [hi] at hs
      exact absurd hs (by decide)
    | cancelActive hs =>
      obtain ⟨k, h1, h2, h3⟩ := ih hi hcpl
      exact ⟨k, Relation.ReflTransGen.head (JobStep.cancelActive _ hs) h1,
        h2, h3⟩

/-- C2: across any sequence of `job_run` steps and `job_cancel` calls, the
job state only moves forward along INITIALIZED → EXECUTING → COMPLETED: the
state's rank never decreases, any single operation that moved an INITIALIZED
job directly to COMPLETED could only have concerned a canceled job (in fact
no operation does so), and every multi-step path from INITIALIZED to
COMPLETED passes through EXECUTING. -/
theorem job_state_forward_only (j j' : Job) (h : JobSteps j j') :
    j.state.rank ≤ j'.state.rank ∧
      (∀ a b : Job, JobStep a b → a.state = JOB_INITIALIZED →
        b.state = JOB_COMPLETED → a.canceled = true) ∧
      (j.state = JOB_INITIALIZED → j'.state = JOB_COMPLETED →
        ∃ k, JobSteps j k ∧ JobSteps k j' ∧ k.state = JOB_EXECUTING) := by
  refine ⟨jobSteps_rank_mono h, ?_, jobSteps_through_executing h⟩
  intro a b hstep ha hb
  cases hstep with
  | startExec t hs hc =>
    simp at hb
  | finishExec hs =>
    rw [ha] at hs
    exact absurd hs (by decide)
  | cancelDone hs =>
    rw [ha] at hs
    exact absurd hs (by decide)
  | cancelActive hs =>
    have hb' : a.state = JOB_COMPLETED := hb
    rw [ha] at hb'
    exact absurd hb' (by decide)

/-- C2 witness: the forward-only theorem applied to a concrete two-step
execution INITIALIZED → EXECUTING → COMPLETED. -/
theorem job_state_forward_only_witness :
    (⟨JOB_INITIALIZED, false, 0, 4⟩ : Job).state.rank ≤
        (⟨JOB_COMPLETED, false, 5, 4⟩ : Job).state.rank ∧
      (∀ a b : Job, JobStep a b → a.state = JOB_INITIALIZED →
        b.state = JOB_COMPLETED → a.canceled = true) ∧
      ((⟨JOB_INITIALIZED, false, 0, 4⟩ : Job).state = JOB_INITIALIZED →
        (⟨JOB_COMPLETED, false, 5, 4⟩ : Job).state = JOB_COMPLETED →
        ∃ k, JobSteps ⟨JOB_INITIALIZED, false, 0, 4⟩ k ∧
          JobSteps k ⟨JOB_COMPLETED, false, 5, 4⟩ ∧
          k.state = JOB_EXECUTING) :=
  job_state_forward_only ⟨JOB_INITIALIZED, false, 0, 4⟩
    ⟨JOB_COMPLETED, false, 5, 4⟩
    (Relation.ReflTransGen.head
      (JobStep.startExec ⟨JOB_INITIALIZED, false, 0, 4⟩ 5 rfl rfl)
      (Relation.ReflTransGen.single
        (JobStep.finishExec ⟨JOB_EXECUTING, false, 5, 4⟩ rfl)))

/-- C6: `job_cancel` on a COMPLETED job returns success and changes nothing:
the job record (state, canceled flag) is untouched, the halt function is not
invoked, and nothing is logged; the recorded result is untouched since
`job_cancel` never writes to the future. -/
theorem job_cancel_completed (halt : Nat → Nat → Int) (job : Job)
    (h : job.state = JOB_COMPLETED) :
    job_cancel halt job = ⟨job, 0, false, false⟩ := by
  simp [job_cancel, h]

/-- C6 witness: cancelling a concrete COMPLETED job. -/
theorem job_cancel_completed_witness :
    job_cancel haltZero ⟨JOB_COMPLETED, false, 3, 9⟩ =
      ⟨⟨JOB_COMPLETED, false, 3, 9⟩, 0, false, false⟩ :=
  job_cancel_completed haltZero ⟨JOB_COMPLETED, false, 3, 9⟩ rfl

/-- C7: `job_cancel` on an EXECUTING job sets `canceled`, invokes the halt
function with the payload and the recorded thread, returns the halt status
(logging exactly when it is non-zero), and its mutex trace releases the job
lock strictly before the halt call. -/
theorem job_cancel_executing (halt : Nat → Nat → Int) (job : Job)
    (h : job.state = JOB_EXECUTING) :
    job_cancel halt job =
        ⟨{ job with canceled := true }, halt job.obj job.thread, true,
          decide (halt job.obj job.thread ≠ 0)⟩ ∧
      job_cancelTrace job =
        [CancelEv.lock, CancelEv.setCanceled, CancelEv.unlock,
          CancelEv.callHalt] ∧
      List.indexOf CancelEv.unlock (job_cancelTrace job) <
        List.indexOf CancelEv.callHalt (job_cancelTrace job) := by
  have htr : job_cancelTrace job =
      [CancelEv.lock, CancelEv.setCanceled, CancelEv.unlock,
        CancelEv.callHalt] := by
    simp [job_cancelTrace, h]
  refine ⟨?_, htr, ?_⟩
  · simp [job_cancel, h]
  · rw [htr]
    decide

/-- C7 witness: cancelling a concrete EXECUTING job. -/
theorem job_cancel_executing_witness :
    job_cancel haltZero ⟨JOB_EXECUTING, false, 3, 9⟩ =
        ⟨{ (⟨JOB_EXECUTING, false, 3, 9⟩ : Job) with canceled := true },
          haltZero 9 3, true, decide (haltZero 9 3 ≠ 0)⟩ ∧
      job_cancelTrace ⟨JOB_EXECUTING, false, 3, 9⟩ =
        [CancelEv.lock, CancelEv.setCanceled, CancelEv.unlock,
          CancelEv.callHalt] ∧
      List.indexOf CancelEv.unlock
          (job_cancelTrace ⟨JOB_EXECUTING, false, 3, 9⟩) <
        List.indexOf CancelEv.callHalt
          (job_cancelTrace ⟨JOB_EXECUTING, false, 3, 9⟩) :=
  job_cancel_executing haltZero ⟨JOB_EXECUTING, false, 3, 9⟩ rfl

/-- C8: the default halt function delivers SIGTERM to the job's thread via
`pthread_kill`; an ESRCH delivery failure is converted to success without
logging, a clean delivery returns 0 without logging, and any other non-zero
delivery failure is logged and returned. -/
theorem job_defaultHaltFunc_spec (kill : Nat → Nat → Int) (obj thread : Nat) :
    (job_defaultHaltFunc kill obj thread).sentThread = thread ∧
      (job_defaultHaltFunc kill obj thread).sentSignal = SIGTERM ∧
      (kill thread SIGTERM = ESRCH →
        job_defaultHaltFunc kill obj thread = ⟨0, false, thread, SIGTERM⟩) ∧
      (kill thread SIGTERM = 0 →
        job_defaultHaltFunc kill obj thread = ⟨0, false, thread, SIGTERM⟩) ∧
      (kill thread SIGTERM ≠ 0 → kill thread SIGTERM ≠ ESRCH →
        job_defaultHaltFunc kill obj thread =
          ⟨kill thread SIGTERM, true, thread, SIGTERM⟩) := by
  refine ⟨?_, ?_, ?_, ?_, ?_⟩
  · simp only [job_defaultHaltFunc]
    split <;> [split <;> rfl; rfl]
  · simp only [job_defaultHaltFunc]
    split <;> [split <;> rfl; rfl]
  · intro h
    have hne : (ESRCH : Int) ≠ 0 := by decide
    simp [job_defaultHaltFunc, h, hne]
  · intro h
    simp [job_defaultHaltFunc, h]
  · intro h1 h2
    simp [job_defaultHaltFunc, h1, h2]

/-- Fixed failing kill function used in the C8 witness. -/
def killFive : Nat → Nat → Int := fun _ _ => 5

/-- C8 witness: the default-halt theorem at a concrete kill function that
fails with status 5 (neither 0 nor ESRCH). -/
theorem job_defaultHaltFunc_spec_witness :
    (job_defaultHaltFunc killFive 9 3).sentThread = 3 ∧
      (job_defaultHaltFunc killFive 9 3).sentSignal = SIGTERM ∧
      (killFive 3 SIGTERM = ESRCH →
        job_defaultHaltFunc killFive 9 3 = ⟨0, false, 3, SIGTERM⟩) ∧
      (killFive 3 SIGTERM = 0 →
        job_defaultHaltFunc killFive 9 3 = ⟨0, false, 3, SIGTERM⟩) ∧
      (killFive 3 SIGTERM ≠ 0 → killFive 3 SIGTERM ≠ ESRCH →
        job_defaultHaltFunc killFive 9 3 =
          ⟨killFive 3 SIGTERM, true, 3, SIGTERM⟩) :=
  job_defaultHaltFunc_spec killFive 9 3

/-! ### Job list: intrusive doubly-linked list of jobs

The `prev`/`next` pointers live in the jobs themselves; the heap of link
fields is modelled as a total map from job identifiers to link pairs
(a fresh job has both pointers null, as set by `job_new`). -/

/-- Link fields of a job: the `prev` and `next` pointers of `struct job`. -/
structure JobNode where
  prev : Option Nat
  next : Option Nat
deriving DecidableEq, Repr

/-- State of `struct jobList` together with the link fields of all jobs. -/
structure JobList where
  links : Nat → JobNode
  head : Option Nat
  tail : Option Nat
  size : Nat

/-- Embedding of `jobList_new`: empty list, all jobs fresh. -/
def jobList_new : JobList :=
  ⟨fun _ => ⟨none, none⟩, none, none, 0⟩

/-- Overwrite the `prev` pointer of job `k`. -/
def setPrev (links : Nat → JobNode) (k : Nat) (p : Option Nat) :
    Nat → JobNode :=
  fun i => if i = k then ⟨p, (links k).next⟩ else links i

/-- Overwrite the `next` pointer of job `k`. -/
def setNext (links : Nat → JobNode) (k : Nat) (n : Option Nat) :
    Nat → JobNode :=
  fun i => if i = k then ⟨(links k).prev, n⟩ else links i

/-- Embedding of `jobList_add` (Executor.c lines 330-344): append at the
tail; the new job's `prev` becomes the old tail, the old tail's `next` (when
present) becomes the new job, the head is set when the list was empty, and
the size is incremented. The new job's `next` is not written (it is null in
a fresh job). -/
def jobList_add (jl : JobList) (j : Nat) : JobList :=
  let links1 := setPrev jl.links j jl.tail
  let head1 := if jl.head = none then some j else jl.head
  let links2 :=
    match jl.tail with
    | some t => setNext links1 t (some j)
    | none => links1
  ⟨links2, head1, some j, jl.size + 1⟩

/-- Embedding of `jobList_remove` (Executor.c lines 353-376): unlink the job
using its stored `prev`/`next` pointers, updating the neighbours or the
head/tail on boundary removal, and decrement the size. The removed job's
own pointers are not cleared. -/
def jobList_remove (jl : JobList) (j : Nat) : JobList :=
  let p := (jl.links j).prev
  let n := (jl.links j).next
  let links1 :=
    match p with
    | some pp => setNext jl.links pp n
    | none => jl.links
  let head1 :=
    match p with
    | some _ => jl.head
    | none => n
  let links2 :=
    match n with
    | some nn => setPrev links1 nn p
    | none => links1
  let tail1 :=
    match n with
    | some _ => jl.tail
    | none => p
  ⟨links2, head1, tail1, jl.size - 1⟩

/-- Embedding of `jobList_size`: returns the size counter. -/
def jobList_size (jl : JobList) : Nat :=
  jl.size

/-- Walk the chain of `next` pointers starting at `cur`, with explicit fuel
(the C code walks raw pointers; under the list invariant any fuel of at
least the list's size reproduces the walk exactly). -/
def chainListAux (links : Nat → JobNode) : Nat → Option Nat → List Nat
  | 0, _ => []
  | _ + 1, none => []
  | fuel + 1, some j => j :: chainListAux links fuel (links j).next

/-- Nodes reachable from the head of the job list, using the size counter
as fuel. -/
def chainList (jl : JobList) : List Nat :=
  chainListAux jl.links jl.size jl.head

/-- Chain-segment check: starting at `cur` whose expected `prev` is `p`, the
nodes spell exactly `l` with mutually consistent `prev`/`next` links, and the
link following the last node is `stop`. -/
def segTo (links : Nat → JobNode) (p cur : Option Nat) :
    List Nat → Option Nat → Bool
  | [], stop => decide (cur = stop)
  | j :: l, stop =>
      decide (cur = some j) && decide ((links j).prev = p) &&
        segTo links (some j) (links j).next l stop

/-- Structural invariant of the job list, relative to a representation list
`l` of its members in chain order: the links from the head spell `l` ending
in null (hence the head's `prev` and the tail's `next` are null and the
interior links are mutually consistent), the `tail` pointer is the last
member, the `size` field is the length, and the members are distinct. -/
def chainOK (jl : JobList) (l : List Nat) : Prop :=
  segTo jl.links none jl.head l none = true ∧
    jl.tail = l.getLast? ∧ jl.size = l.length ∧ l.Nodup

instance (jl : JobList) (l : List Nat) : Decidable (chainOK jl l) := by
  unfold chainOK
  infer_instance

/-- First non-zero status in a list, or 0; the value accumulated by the
`status`/`stat` logic of `jobList_cancelAll`. -/
def firstNonzero : List Int → Int
  | [] => 0
  | s :: rest => if s ≠ 0 then s else firstNonzero rest

/-- Embedding of `jobList_cancelAll` (Executor.c lines 384-403): walk the
chain from the head, invoke `future_cancel` (modelled by the status map
`fc`) on every node, remember the first non-zero status, and return it
together with the list of nodes visited. -/
def cancelAllAux (fc : Nat → Int) (links : Nat → JobNode) :
    Nat → Option Nat → Int × List Nat
  | 0, _ => (0, [])
  | _ + 1, none => (0, [])
  | fuel + 1, some j =>
      let stat := fc j
      let rest := cancelAllAux fc links fuel (links j).next
      (if stat ≠ 0 then stat else rest.1, j :: rest.2)

/-- Status and visited nodes of `jobList_cancelAll`, walking from the head
with the size counter as fuel. -/
def jobList_cancelAll (fc : Nat → Int) (jl : JobList) : Int × List Nat :=
  cancelAllAux fc jl.links jl.size jl.head

/-! ### Lemmas about chain segments -/

/-- First element of `ys`, or `stop` when `ys` is empty: the pointer expected
to follow a segment that `ys` continues. -/
def head2 (ys : List Nat) (stop : Option Nat) : Option Nat :=
  match ys with
  | [] => stop
  | y :: _ => some y

/-- Last element of `xs`, or `p` when `xs` is empty: the `prev` pointer
expected by whatever follows the segment `xs`. -/
def lastP (xs : List Nat) (p : Option Nat) : Option Nat :=
  match xs.getLast? with
  | none => p
  | some t => some t

/-- With `p = none`, `lastP` is just `getLast?`. -/
theorem lastP_none (xs : List Nat) : lastP xs none = xs.getLast? := by
  unfold lastP
  cases xs.getLast? <;> rfl

/-- `lastP` of a nonempty list ignores its second argument's origin. -/
theorem lastP_cons (x : Nat) (xs : List Nat) (p : Option Nat) :
    lastP (x :: xs) p = lastP xs (some x) := by
  unfold lastP
  cases xs with
  | nil => rfl
  | cons y ys =>
    rw [List.getLast?_cons_cons]
    cases hyl : (y :: ys).getLast? with
    | none =>
      have hs := (List.getLast?_isSome (l := y :: ys)).2 (by simp)
      rw [hyl] at hs
      simp at hs
    | some t => rfl

/-- A chain-segment check only inspects the links of its members. -/
theorem segTo_congr (links : Nat → JobNode) {links' : Nat → JobNode}
    {l : List Nat}
    (hagree : ∀ k ∈ l, links' k = links k) (p cur stop : Option Nat) :
    segTo links' p cur l stop = segTo links p cur l stop := by
  induction l generalizing p cur with
  | nil => rfl
  | cons j l ih =>
    simp only [segTo]
    rw [hagree j (by simp)]
    rw [ih (fun k hk => hagree k (by simp [hk])) (some j) ((links j).next)]

/-- Splitting a chain-segment check at an append: the first part ends where
the second begins, and the second part's expected `prev` is the last node of
the first part. -/
theorem segTo_append (links : Nat → JobNode) (xs ys : List Nat)
    (p cur stop : Option Nat) :
    segTo links p cur (xs ++ ys) stop =
      (segTo links p cur xs (head2 ys stop) &&
        segTo links (lastP xs p) (head2 ys stop) ys stop) := by
  induction xs generalizing p cur with
  | nil =>
    cases ys with
    | nil => simp [segTo, head2, lastP]
    | cons y ys' =>
      simp only [List.nil_append, segTo, head2, lastP, List.getLast?_nil]
      cases hc : decide (cur = some y) <;> simp [hc, segTo]
  | cons x xs' ih =>
    simp only [List.cons_append, segTo, lastP_cons, List.append_eq]
    rw [ih (some x) ((links x).next)]
    cases h1 : decide (cur = some x) <;>
      cases h2 : decide ((links x).prev = p) <;>
      simp [Bool.and_assoc]

/-- Walking the `next` pointers of a valid segment with enough fuel yields
exactly the segment. -/
theorem chainListAux_of_seg {links : Nat → JobNode} {p cur : Option Nat}
    {l : List Nat} (h : segTo links p cur l none = true) :
    ∀ fuel, l.length ≤ fuel → chainListAux links fuel cur = l := by
  induction l generalizing p cur with
  | nil =>
    have hc : cur = none := by simpa [segTo] using h
    intro fuel _
    cases fuel <;> simp [chainListAux, hc]
  | cons j l ih =>
    simp only [segTo, Bool.and_eq_true, decide_eq_true_eq] at h
    obtain ⟨⟨hc, hp⟩, hrest⟩ := h
    intro fuel hf
    cases fuel with
    | zero => simp at hf
    | succ f =>
      rw [hc]
      simp only [chainListAux, List.cons.injEq, true_and]
      exact ih hrest f (by simpa using hf)

/-- Cancelling along a valid segment with enough fuel visits exactly the
segment's nodes, in order, and returns the first non-zero status. -/
theorem cancelAllAux_of_seg {fc : Nat → Int} {links : Nat → JobNode}
    {p cur : Option Nat} {l : List Nat}
    (h : segTo links p cur l none = true) :
    ∀ fuel, l.length ≤ fuel →
      cancelAllAux fc links fuel cur = (firstNonzero (l.map fc), l) := by
  induction l generalizing p cur with
  | nil =>
    have hc : cur = none := by simpa [segTo] using h
    intro fuel _
    cases fuel <;> simp [cancelAllAux, hc, firstNonzero]
  | cons j l ih =>
    simp only [segTo, Bool.and_eq_true, decide_eq_true_eq] at h
    obtain ⟨⟨hc, hp⟩, hrest⟩ := h
    intro fuel hf
    cases fuel with
    | zero => simp at hf
    | succ f =>
      rw [hc]
      simp only [cancelAllAux, List.map_cons, firstNonzero]
      rw [ih hrest f (by simpa using hf)]

/-- A valid segment starting a nonempty list starts at its first element. -/
theorem segTo_head {links : Nat → JobNode} {p cur stop : Option Nat}
    {x : Nat} {xs : List Nat} (h : segTo links p cur (x :: xs) stop = true) :
    cur = some x := by
  simp only [segTo, Bool.and_eq_true, decide_eq_true_eq] at h
  exact h.1.1

/-- Adding a fresh job (both pointers null, not a member) preserves the
chain invariant and appends the job at the tail. -/
theorem chainOK_add {jl : JobList} {l : List Nat} {j : Nat}
    (h : chainOK jl l) (hfresh : jl.links j = ⟨none, none⟩) (hnm : j ∉ l) :
    chainOK (jobList_add jl j) (l ++ [j]) := by
  obtain ⟨hseg, htail, hsize, hnd⟩ := h
  have hndj : (l ++ [j]).Nodup := by
    rw [List.nodup_append]
    refine ⟨hnd, List.nodup_singleton j, ?_⟩
    intro x hx hx1
    rw [List.mem_singleton] at hx1
    exact hnm (hx1 ▸ hx)
  rcases List.eq_nil_or_concat l with rfl | ⟨l', t, hlc⟩
  · have hhead : jl.head = none := by simpa [segTo] using hseg
    have htn : jl.tail = none := by simpa using htail
    refine ⟨?_, ?_, ?_, hndj⟩
    · simp [jobList_add, hhead, htn, segTo, setPrev, hfresh]
    · simp [jobList_add]
    · simpa [jobList_add] using hsize
  · have hl : l = l' ++ [t] := by simpa [List.concat_eq_append] using hlc
    subst hl
    have htt : jl.tail = some t := by
      rw [htail, List.getLast?_concat]
    have htl' : t ∉ l' := by
      rw [List.nodup_append] at hnd
      exact fun ht => hnd.2.2 ht (List.mem_singleton_self t)
    have hjt : j ≠ t := fun hj => hnm (by simp [hj])
    have hjl' : j ∉ l' := fun hj => hnm (by simp [hj])
    obtain ⟨x, xs, hxx⟩ : ∃ x xs, l' ++ [t] = x :: xs := by
      cases l' <;> exact ⟨_, _, rfl⟩
    have hhd : jl.head = some x := by
      rw [hxx] at hseg
      exact segTo_head hseg
    have hLinks2 : (jobList_add jl j).links =
        setNext (setPrev jl.links j (some t)) t (some j) := by
      simp [jobList_add, htt]
    have hHead1 : (jobList_add jl j).head = jl.head := by
      simp [jobList_add, hhd]
    have hagree : ∀ k ∈ l',
        setNext (setPrev jl.links j (some t)) t (some j) k = jl.links k := by
      intro k hk
      have hkt : ¬(k = t) := fun he => htl' (he ▸ hk)
      have hkj : ¬(k = j) := fun he => hjl' (he ▸ hk)
      simp [setNext, setPrev, hkt, hkj]
    rw [segTo_append] at hseg
    rw [Bool.and_eq_true] at hseg
    obtain ⟨hA, hB⟩ := hseg
    simp only [head2] at hA hB
    simp only [segTo, Bool.and_eq_true, decide_eq_true_eq] at hB
    refine ⟨?_, ?_, ?_, hndj⟩
    · rw [hLinks2, hHead1, segTo_append, Bool.and_eq_true]
      constructor
      · rw [segTo_append, Bool.and_eq_true]
        constructor
        · simp only [head2]
          rw [segTo_congr jl.links hagree]
          exact hA
        · simp only [head2, segTo, Bool.and_eq_true, decide_eq_true_eq]
          have hts : setNext (setPrev jl.links j (some t)) t (some j) t =
              ⟨(jl.links t).prev, some j⟩ := by
            simp [setNext, setPrev, Ne.symm hjt]
          rw [hts]
          exact ⟨⟨trivial, hB.1.2⟩, by simp [segTo]⟩
      · simp only [head2, lastP_none, List.getLast?_concat, segTo,
          Bool.and_eq_true, decide_eq_true_eq]
        have hjs : setNext (setPrev jl.links j (some t)) t (some j) j =
            ⟨some t, none⟩ := by
          simp [setNext, setPrev, hjt, hfresh]
        rw [hjs]
        exact ⟨⟨trivial, rfl⟩, by simp [segTo]⟩
    · simp [jobList_add, List.getLast?_concat]
    · simpa [jobList_add] using hsize

/-- getLast? of an append with a nonempty right part. -/
theorem getLast?_append_ne_nil {α : Type} (l1 : List α) {l2 : List α}
    (h : l2 ≠ []) : (l1 ++ l2).getLast? = l2.getLast? := by
  rw [List.getLast?_append]
  cases l2 with
  | nil => exact absurd rfl h
  | cons a t => simp [List.getLast?_cons]

/-- Removing a member preserves the chain invariant and erases the member
from the representation list. -/
theorem chainOK_remove {jl : JobList} {l : List Nat} {j : Nat}
    (h : chainOK jl l) (hm : j ∈ l) :
    chainOK (jobList_remove jl j) (l.erase j) := by
  obtain ⟨hseg, htail, hsize, hnd⟩ := h
  obtain ⟨l1, l2, rfl⟩ := List.append_of_mem hm
  have hndA := hnd
  rw [List.nodup_append] at hndA
  have hndl1 : l1.Nodup := hndA.1
  have hjl2 : j ∉ l2 := (List.nodup_cons.mp hndA.2.1).1
  have hndl2 : l2.Nodup := (List.nodup_cons.mp hndA.2.1).2
  have hjl1 : j ∉ l1 := fun hj => hndA.2.2 hj (by simp)
  have hdisj12 : ∀ k ∈ l1, k ∉ l2 := fun k hk hk2 => hndA.2.2 hk (by simp [hk2])
  have herase : (l1 ++ j :: l2).erase j = l1 ++ l2 := by
    rw [List.erase_append_right _ hjl1, List.erase_cons_head]
  rw [herase]
  have hndgoal : (l1 ++ l2).Nodup :=
    hnd.sublist ((List.sublist_cons_self j l2).append_left l1)
  rw [segTo_append, Bool.and_eq_true] at hseg
  obtain ⟨hA, hB⟩ := hseg
  simp only [head2] at hA hB
  have hPrev : (jl.links j).prev = lastP l1 none := by
    simp only [segTo, Bool.and_eq_true, decide_eq_true_eq] at hB
    exact hB.1.2
  have hSegl2 : segTo jl.links (some j) ((jl.links j).next) l2 none = true := by
    simp only [segTo, Bool.and_eq_true, decide_eq_true_eq] at hB
    exact hB.2
  have hlen : jl.size = l1.length + 1 + l2.length := by
    simp only [List.length_append, List.length_cons] at hsize
    omega
  rcases List.eq_nil_or_concat l1 with rfl | ⟨l1', t, hl1c⟩
  · -- j is the head of the chain
    have hP : (jl.links j).prev = none := by simpa [lastP] using hPrev
    cases l2 with
    | nil =>
      have hN : (jl.links j).next = none := by simpa [segTo] using hSegl2
      have hrw : jobList_remove jl j = ⟨jl.links, none, none, jl.size - 1⟩ := by
        simp [jobList_remove, hP, hN]
      rw [hrw]
      exact ⟨by simp [segTo], by simp, by simp [hlen], by simp⟩
    | cons nn l2' =>
      have hN : (jl.links j).next = some nn := segTo_head hSegl2
      have hrw : jobList_remove jl j =
          ⟨setPrev jl.links nn none, some nn, jl.tail, jl.size - 1⟩ := by
        simp [jobList_remove, hP, hN]
      rw [hrw]
      rw [hN] at hSegl2
      simp only [segTo, Bool.and_eq_true, decide_eq_true_eq] at hSegl2
      have hSegl2' : segTo jl.links (some nn) ((jl.links nn).next) l2' none =
          true := hSegl2.2
      have hnnl2' : nn ∉ l2' := (List.nodup_cons.mp hndl2).1
      refine ⟨?_, ?_, ?_, hndgoal⟩
      · show segTo (setPrev jl.links nn none) none (some nn)
          ([] ++ nn :: l2') none = true
        simp only [List.nil_append, segTo, Bool.and_eq_true,
          decide_eq_true_eq]
        have hnn : setPrev jl.links nn none nn =
            ⟨none, (jl.links nn).next⟩ := by
          simp [setPrev]
        rw [hnn]
        refine ⟨⟨trivial, rfl⟩, ?_⟩
        rw [segTo_congr jl.links
          (fun k hk => by
            have hknn : ¬(k = nn) := fun he => hnnl2' (he ▸ hk)
            simp [setPrev, hknn])]
        exact hSegl2'
      · show jl.tail = ([] ++ nn :: l2').getLast?
        rw [htail]
        simp [List.getLast?_cons_cons]
      · show jl.size - 1 = ([] ++ nn :: l2').length
        simp only [hlen, List.nil_append, List.length_cons, List.length_nil]
        omega
  · -- j has a predecessor t, the last node of l1'
    have hl1 : l1 = l1' ++ [t] := by simpa [List.concat_eq_append] using hl1c
    subst hl1
    have hP : (jl.links j).prev = some t := by
      rw [hPrev, lastP_none, List.getLast?_concat]
    have htl1' : t ∉ l1' := by
      rw [List.nodup_append] at hndl1
      exact fun ht => hndl1.2.2 ht (by simp)
    have htmem : t ∈ l1' ++ [t] := by simp
    have htl2 : t ∉ l2 := hdisj12 t htmem
    rw [segTo_append, Bool.and_eq_true] at hA
    obtain ⟨hA1, hA2⟩ := hA
    simp only [head2] at hA1 hA2
    simp only [segTo, Bool.and_eq_true, decide_eq_true_eq] at hA2
    have hprevt : (jl.links t).prev = lastP l1' none := hA2.1.2
    cases l2 with
    | nil =>
      have hN : (jl.links j).next = none := by simpa [segTo] using hSegl2
      have hrw : jobList_remove jl j =
          ⟨setNext jl.links t none, jl.head, some t, jl.size - 1⟩ := by
        simp [jobList_remove, hP, hN]
      rw [hrw]
      refine ⟨?_, ?_, ?_, hndgoal⟩
      · show segTo (setNext jl.links t none) none jl.head
          ((l1' ++ [t]) ++ []) none = true
        rw [List.append_nil, segTo_append, Bool.and_eq_true]
        constructor
        · simp only [head2]
          rw [segTo_congr jl.links
            (fun k hk => by
              have hkt : ¬(k = t) := fun he => htl1' (he ▸ hk)
              simp [setNext, hkt])]
          exact hA1
        · simp only [head2, lastP_none, segTo, Bool.and_eq_true,
            decide_eq_true_eq]
          have ht2 : setNext jl.links t none t =
              ⟨(jl.links t).prev, none⟩ := by
            simp [setNext]
          rw [ht2]
          exact ⟨⟨trivial, by rw [hprevt, lastP_none]⟩, by simp [segTo]⟩
      · show some t = ((l1' ++ [t]) ++ []).getLast?
        rw [List.append_nil, List.getLast?_concat]
      · show jl.size - 1 = ((l1' ++ [t]) ++ []).length
        simp only [hlen, List.append_nil, List.length_append,
          List.length_cons, List.length_nil]
        omega
    | cons nn l2' =>
      have hN : (jl.links j).next = some nn := segTo_head hSegl2
      have hrw : jobList_remove jl j =
          ⟨setPrev (setNext jl.links t (some nn)) nn (some t), jl.head,
            jl.tail, jl.size - 1⟩ := by
        simp [jobList_remove, hP, hN]
      rw [hrw]
      rw [hN] at hSegl2
      simp only [segTo, Bool.and_eq_true, decide_eq_true_eq] at hSegl2
      have hSegl2' : segTo jl.links (some nn) ((jl.links nn).next) l2' none :=
        hSegl2.2
      have hnnl2' : nn ∉ l2' := (List.nodup_cons.mp hndl2).1
      have hnnt : nn ≠ t := fun he => htl2 (he ▸ (by simp : nn ∈ nn :: l2'))
      refine ⟨?_, ?_, ?_, hndgoal⟩
      · show segTo (setPrev (setNext jl.links t (some nn)) nn (some t)) none
          jl.head ((l1' ++ [t]) ++ nn :: l2') none = true
        rw [segTo_append, Bool.and_eq_true]
        constructor
        · rw [segTo_append, Bool.and_eq_true]
          constructor
          · simp only [head2]
            rw [segTo_congr jl.links
              (fun k hk => by
                have hkt : ¬(k = t) := fun he => htl1' (he ▸ hk)
                have hknn : ¬(k = nn) :=
                  fun he => hdisj12 k (by simp [hk]) (he ▸ (by simp))
                simp [setPrev, setNext, hkt, hknn])]
            exact hA1
          · simp only [head2, segTo, Bool.and_eq_true, decide_eq_true_eq]
            have ht2 : setPrev (setNext jl.links t (some nn)) nn (some t) t =
                ⟨(jl.links t).prev, some nn⟩ := by
              simp [setPrev, setNext, Ne.symm hnnt]
            rw [ht2]
            exact ⟨⟨trivial, by rw [hprevt, lastP_none]⟩, by simp [segTo]⟩
        · simp only [head2, lastP_none, List.getLast?_concat, segTo,
            Bool.and_eq_true, decide_eq_true_eq]
          have hnn2 : setPrev (setNext jl.links t (some nn)) nn (some t) nn =
              ⟨some t, (jl.links nn).next⟩ := by
            simp [setPrev, setNext, hnnt]
          rw [hnn2]
          refine ⟨⟨trivial, rfl⟩, ?_⟩
          rw [segTo_congr jl.links
            (fun k hk => by
              have hknn : ¬(k = nn) := fun he => hnnl2' (he ▸ hk)
              have hkt : ¬(k = t) := fun he => htl2 (he ▸ (by simp [hk]))
              simp [setPrev, setNext, hkt, hknn])]
          exact hSegl2'
      · show jl.tail = ((l1' ++ [t]) ++ nn :: l2').getLast?
        rw [htail, getLast?_append_ne_nil _ (by simp),
          getLast?_append_ne_nil _ (by simp), List.getLast?_cons_cons]
      · show jl.size - 1 = ((l1' ++ [t]) ++ nn :: l2').length
        simp only [hlen, List.length_append, List.length_cons,
          List.length_nil]
        omega

/-! ### Sequences of job-list operations -/

/-- Under the chain invariant the fuelled walk from the head computes the
representation list. -/
theorem chainList_eq {jl : JobList} {l : List Nat} (h : chainOK jl l) :
    chainList jl = l :=
  chainListAux_of_seg h.1 jl.size (le_of_eq h.2.2.1.symm)

/-- The head pointer of a valid chain is its first member (or null). -/
theorem chainOK_head {jl : JobList} {l : List Nat} (h : chainOK jl l) :
    jl.head = head2 l none := by
  cases l with
  | nil => simpa [segTo, head2] using h.1
  | cons x xs => exact segTo_head h.1

/-- The last node of a valid segment ending in null has a null next pointer. -/
theorem segTo_last_next {links : Nat → JobNode} {p cur : Option Nat}
    {l : List Nat} (h : segTo links p cur l none = true) {t : Nat}
    (ht : l.getLast? = some t) : (links t).next = none := by
  rcases List.eq_nil_or_concat l with rfl | ⟨l', t', hlc⟩
  · simp at ht
  · have hl : l = l' ++ [t'] := by simpa [List.concat_eq_append] using hlc
    subst hl
    rw [List.getLast?_concat] at ht
    rw [segTo_append, Bool.and_eq_true] at h
    obtain ⟨_, h2⟩ := h
    simp only [head2, segTo, Bool.and_eq_true, decide_eq_true_eq] at h2
    exact Option.some.inj ht ▸ h2.2

/-- The first node of a valid chain has a null prev pointer. -/
theorem segTo_head_prev {links : Nat → JobNode} {cur : Option Nat}
    {l : List Nat} {hh : Nat} (h : segTo links none cur l none = true)
    (hc : cur = some hh) : (links hh).prev = none := by
  cases l with
  | nil =>
    have : cur = none := by simpa [segTo] using h
    rw [this] at hc
    exact absurd hc (by simp)
  | cons x xs =>
    simp only [segTo, Bool.and_eq_true, decide_eq_true_eq] at h
    have hx : hh = x := by
      rw [h.1.1] at hc
      exact (Option.some.inj hc).symm
    rw [hx]
    exact h.1.2

/-- One operation on the job list: `jobList_add` or `jobList_remove`. -/
inductive JLOp where
  | add (j : Nat)
  | remove (j : Nat)
deriving DecidableEq, Repr

/-- Apply one operation. -/
def applyOp (jl : JobList) : JLOp → JobList
  | JLOp.add j => jobList_add jl j
  | JLOp.remove j => jobList_remove jl j

/-- Apply a sequence of operations, first element first. -/
def applyOps (jl : JobList) : List JLOp → JobList
  | [] => jl
  | op :: ops => applyOps (applyOp jl op) ops

/-- Well-formed use of one operation, as in the claim: `add` only on a fresh
node (both pointers null, not a member), `remove` only on a current member. -/
def opOK (jl : JobList) : JLOp → Prop
  | JLOp.add j => jl.links j = ⟨none, none⟩ ∧ j ∉ chainList jl
  | JLOp.remove j => j ∈ chainList jl

instance (jl : JobList) (op : JLOp) : Decidable (opOK jl op) := by
  cases op <;> unfold opOK <;> infer_instance

/-- Well-formed use of a sequence of operations. -/
def opsOK (jl : JobList) : List JLOp → Prop
  | [] => True
  | op :: ops => opOK jl op ∧ opsOK (applyOp jl op) ops

instance instDecOpsOK : (jl : JobList) → (ops : List JLOp) →
    Decidable (opsOK jl ops)
  | _, [] => isTrue trivial
  | jl, op :: ops =>
      @instDecidableAnd _ _ _ (instDecOpsOK (applyOp jl op) ops)

/-- The empty job list satisfies the chain invariant. -/
theorem chainOK_new : chainOK jobList_new [] :=
  ⟨rfl, rfl, rfl, List.nodup_nil⟩

/-- Any well-formed sequence of operations preserves the chain invariant. -/
theorem chainOK_applyOps : ∀ (ops : List JLOp) (jl : JobList) (l : List Nat),
    chainOK jl l → opsOK jl ops → ∃ l', chainOK (applyOps jl ops) l' := by
  intro ops
  induction ops with
  | nil => exact fun jl l h _ => ⟨l, h⟩
  | cons op ops ih =>
    intro jl l h hops
    cases op with
    | add j =>
      obtain ⟨⟨hfresh, hnm⟩, hrest⟩ := hops
      rw [chainList_eq h] at hnm
      exact ih (jobList_add jl j) (l ++ [j]) (chainOK_add h hfresh hnm) hrest
    | remove j =>
      obtain ⟨hmem, hrest⟩ := hops
      have hmem2 : j ∈ chainList jl := hmem
      rw [chainList_eq h] at hmem2
      exact ih (jobList_remove jl j) (l.erase j) (chainOK_remove h hmem2) hrest

/-- C10: starting from the empty list, any sequence of adds of fresh nodes
and removes of members maintains the structural invariant: there is a
representation list `l` of the members in chain order such that the nodes
reachable from the head (under any sufficient fuel) are exactly `l`, the
links are mutually consistent with null prev at the head and null next at
the tail, the `size` field equals the member count, `jobList_size` returns
it, and `jobList_cancelAll` invokes `future_cancel` on every member in
order — even when some cancellations fail — returning the first non-zero
status (or 0). -/
theorem jobList_structural_invariant (ops : List JLOp)
    (hops : opsOK jobList_new ops) :
    ∃ l : List Nat,
      chainOK (applyOps jobList_new ops) l ∧
      (∀ fuel, (applyOps jobList_new ops).size ≤ fuel →
        chainListAux (applyOps jobList_new ops).links fuel
          (applyOps jobList_new ops).head = l) ∧
      (∀ hh, (applyOps jobList_new ops).head = some hh →
        ((applyOps jobList_new ops).links hh).prev = none) ∧
      (∀ tt, (applyOps jobList_new ops).tail = some tt →
        ((applyOps jobList_new ops).links tt).next = none) ∧
      jobList_size (applyOps jobList_new ops) = l.length ∧
      (∀ fc : Nat → Int,
        jobList_cancelAll fc (applyOps jobList_new ops) =
          (firstNonzero (l.map fc), l)) := by
  obtain ⟨l, hok⟩ := chainOK_applyOps ops jobList_new [] chainOK_new hops
  refine ⟨l, hok, ?_, ?_, ?_, hok.2.2.1, ?_⟩
  · exact fun fuel hf =>
      chainListAux_of_seg hok.1 fuel (hok.2.2.1 ▸ hf)
  · exact fun hh hhh => segTo_head_prev hok.1 hhh
  · intro tt htt
    exact segTo_last_next hok.1 (hok.2.1 ▸ htt)
  · intro fc
    exact cancelAllAux_of_seg hok.1 _ (le_of_eq hok.2.2.1.symm)

/-- C10 witness: the invariant theorem at a concrete well-formed sequence of
three adds and one remove. -/
theorem jobList_structural_invariant_witness :
    ∃ l : List Nat,
      chainOK (applyOps jobList_new
        [JLOp.add 1, JLOp.add 2, JLOp.add 3, JLOp.remove 2]) l ∧
      (∀ fuel, (applyOps jobList_new
          [JLOp.add 1, JLOp.add 2, JLOp.add 3, JLOp.remove 2]).size ≤ fuel →
        chainListAux (applyOps jobList_new
            [JLOp.add 1, JLOp.add 2, JLOp.add 3, JLOp.remove 2]).links fuel
          (applyOps jobList_new
            [JLOp.add 1, JLOp.add 2, JLOp.add 3, JLOp.remove 2]).head = l) ∧
      (∀ hh, (applyOps jobList_new
          [JLOp.add 1, JLOp.add 2, JLOp.add 3, JLOp.remove 2]).head =
            some hh →
        ((applyOps jobList_new
          [JLOp.add 1, JLOp.add 2, JLOp.add 3,
            JLOp.remove 2]).links hh).prev = none) ∧
      (∀ tt, (applyOps jobList_new
          [JLOp.add 1, JLOp.add 2, JLOp.add 3, JLOp.remove 2]).tail =
            some tt →
        ((applyOps jobList_new
          [JLOp.add 1, JLOp.add 2, JLOp.add 3,
            JLOp.remove 2]).links tt).next = none) ∧
      jobList_size (applyOps jobList_new
        [JLOp.add 1, JLOp.add 2, JLOp.add 3, JLOp.remove 2]) = l.length ∧
      (∀ fc : Nat → Int,
        jobList_cancelAll fc (applyOps jobList_new
            [JLOp.add 1, JLOp.add 2, JLOp.add 3, JLOp.remove 2]) =
          (firstNonzero (l.map fc), l)) :=
  jobList_structural_invariant
    [JLOp.add 1, JLOp.add 2, JLOp.add 3, JLOp.remove 2] (by decide)

/-! ### Executor

The C `struct executor` holds a mutex, the job list, the shutdown flag and
an optional completion callback; the mutex serialises all executor
operations, so they are modelled as sequential state transformations on the
job list and shutdown flag. The external `future_cancel` collaborator
(which delegates to `job_cancel` and never touches the list structure) is
modelled by a per-job status map `fc : Nat → Int`. -/

/-- External Future collaborator: the published result slot
(status, result, canceled), or none before publication. -/
structure Future where
  result : Option (Int × Option Nat × Bool)
deriving DecidableEq, Repr

/-- Embedding of `future_setResult`: publish the result triple. -/
def future_setResult (f : Future) (status : Int) (result : Option Nat)
    (canceled : Bool) : Future :=
  ⟨some (status, result, canceled)⟩

/-- Executor state relevant to the claims: the job list and the shutdown
flag. -/
structure Executor where
  jobList : JobList
  isShutdown : Bool

/-- Embedding of `executor_new`/`executor_init`: fresh job list, shutdown
flag false. -/
def executor_new : Executor :=
  ⟨jobList_new, false⟩

/-- Embedding of `executor_remove` (Executor.c lines 608-616): remove the
job from the job list under the executor lock. -/
def executor_remove (ex : Executor) (j : Nat) : Executor :=
  { ex with jobList := jobList_remove ex.jobList j }

/-- Embedding of `executor_size` (Executor.c lines 618-626). -/
def executor_size (ex : Executor) : Nat :=
  jobList_size ex.jobList

/-- Embedding of `executor_shutdown` (Executor.c lines 628-648): on the
first call set the shutdown flag and, when `now` is true, cancel every job
in the list; on any later call do nothing and return 0. Returns the new
state, the status, and the list of jobs on which `future_cancel` was
invoked. -/
def executor_shutdown (fc : Nat → Int) (ex : Executor) (now : Bool) :
    Executor × Int × List Nat :=
  if ex.isShutdown then (ex, 0, [])
  else
    let ex1 : Executor := { ex with isShutdown := true }
    if now then
      let r := jobList_cancelAll fc ex.jobList
      (ex1, r.1, r.2)
    else (ex1, 0, [])

/-- Embedding of `executor_submitJob` (Executor.c lines 527-564): reject
with EPERM when shut down; otherwise add the job and create its thread
(creation outcome modelled by `threadStatus`), removing the job again if
creation failed. Returns the new state, the status, and whether a thread
was created. -/
def executor_submitJob (ex : Executor) (j : Nat) (threadStatus : Int) :
    Executor × Int × Bool :=
  if ex.isShutdown then (ex, EPERM, false)
  else
    let jl1 := jobList_add ex.jobList j
    if threadStatus ≠ 0 then
      ({ ex with jobList := jobList_remove jl1 j }, threadStatus, false)
    else
      ({ ex with jobList := jl1 }, 0, true)

/-- Outcome of `executor_submit`: the new executor state, the returned
future (none when null was returned), the status of the failed step (not
read by the caller on success or when the future allocation failed), and
whether a thread was created and whether `job_free`/`future_free` were
called. -/
structure SubmitResult where
  ex : Executor
  future : Option Nat
  status : Int
  threadCreated : Bool
  jobFreed : Bool
  futureFreed : Bool

/-- Embedding of `executor_submit` (Executor.c lines 566-600): allocate a
future and a job (outcomes modelled by `futureAllocOK`/`jobAllocOK`),
submit the job, and on any failure free the half-built job and future and
return a null future. -/
def executor_submit (ex : Executor) (futureAllocOK jobAllocOK : Bool)
    (j fid : Nat) (threadStatus : Int) : SubmitResult :=
  if futureAllocOK = false then
    ⟨ex, none, 0, false, false, false⟩
  else if jobAllocOK = false then
    ⟨ex, none, -1, false, false, true⟩
  else
    let r := executor_submitJob ex j threadStatus
    if r.2.1 ≠ 0 then
      ⟨r.1, none, r.2.1, r.2.2, true, true⟩
    else
      ⟨r.1, some fid, 0, r.2.2, false, false⟩

/-! ### Claims about the executor -/

/-- C3: submitting to a shut-down executor fails: the returned future is
null, the status is EPERM, the half-built job and future are freed, the
executor state (job list included) is unchanged — in particular the job is
never added — and no thread is created. -/
theorem executor_submit_shutdown (ex : Executor) (j fid : Nat)
    (ts : Int) (h : ex.isShutdown = true) :
    executor_submit ex true true j fid ts =
      ⟨ex, none, EPERM, false, true, true⟩ := by
  simp [executor_submit, executor_submitJob, h, EPERM]

/-- C3 witness: submitting to a concrete shut-down executor. -/
theorem executor_submit_shutdown_witness :
    executor_submit ⟨jobList_new, true⟩ true true 1 1 0 =
      ⟨⟨jobList_new, true⟩, none, EPERM, false, true, true⟩ :=
  executor_submit_shutdown ⟨jobList_new, true⟩ 1 1 0 rfl

/-- C4: `executor_shutdown` is idempotent: whatever the two flag values, the
second call returns success (0), cancels no job, and leaves the executor
state exactly as the first call left it. -/
theorem executor_shutdown_idempotent (fc1 fc2 : Nat → Int) (ex : Executor)
    (b1 b2 : Bool) :
    executor_shutdown fc2 (executor_shutdown fc1 ex b1).1 b2 =
      ((executor_shutdown fc1 ex b1).1, 0, []) := by
  have h1 : (executor_shutdown fc1 ex b1).1.isShutdown = true := by
    unfold executor_shutdown
    split
    · next hsd => exact hsd
    · split <;> rfl
  generalize (executor_shutdown fc1 ex b1).1 = e1 at h1 ⊢
  unfold executor_shutdown
  simp [h1]

/-- Two job-link records with equal fields are equal. -/
theorem jobNode_ext {a b : JobNode} (hp : a.prev = b.prev)
    (hn : a.next = b.next) : a = b := by
  cases a
  cases b
  simp at hp hn ⊢
  exact ⟨hp, hn⟩

/-- The last member named by `getLast?` is a member. -/
theorem mem_of_getLast?_eq {l : List Nat} {t : Nat}
    (h : l.getLast? = some t) : t ∈ l := by
  rcases List.eq_nil_or_concat l with rfl | ⟨l', t', hlc⟩
  · simp at h
  · have hl : l = l' ++ [t'] := by simpa [List.concat_eq_append] using hlc
    subst hl
    rw [List.getLast?_concat] at h
    simp [Option.some.inj h]

/-- Adding a fresh job and then removing it restores the job list: head,
tail, size and the links of every other job are as before (the removed
job's own stale pointers are irrelevant, as the job is freed), and the
chain invariant still holds with the original representation list. -/
theorem jobList_add_remove {jl : JobList} {l : List Nat} {j : Nat}
    (h : chainOK jl l) (hfresh : jl.links j = ⟨none, none⟩) (hnm : j ∉ l) :
    (jobList_remove (jobList_add jl j) j).head = jl.head ∧
      (jobList_remove (jobList_add jl j) j).tail = jl.tail ∧
      (jobList_remove (jobList_add jl j) j).size = jl.size ∧
      (∀ k, k ≠ j →
        (jobList_remove (jobList_add jl j) j).links k = jl.links k) ∧
      chainOK (jobList_remove (jobList_add jl j) j) l := by
  have hadd := chainOK_add h hfresh hnm
  have hjmem : j ∈ l ++ [j] := by simp
  have hrem := chainOK_remove hadd hjmem
  have herase : (l ++ [j]).erase j = l := by
    rw [List.erase_append_right _ hnm, List.erase_cons_head, List.append_nil]
  rw [herase] at hrem
  refine ⟨?_, ?_, ?_, ?_, hrem⟩
  · rw [chainOK_head hrem, chainOK_head h]
  · rw [hrem.2.1, h.2.1]
  · rw [hrem.2.2.1, h.2.2.1]
  · cases htl : jl.tail with
    | none =>
      have hAl : (jobList_add jl j).links = setPrev jl.links j none := by
        simp [jobList_add, htl]
      have hAj : (jobList_add jl j).links j = ⟨none, none⟩ := by
        rw [hAl]
        simp [setPrev, hfresh]
      have hR : (jobList_remove (jobList_add jl j) j).links =
          (jobList_add jl j).links := by
        simp [jobList_remove, hAj]
      intro k hk
      rw [hR, hAl]
      simp [setPrev, hk]
    | some t =>
      have htmem : t ∈ l := mem_of_getLast?_eq (h.2.1 ▸ htl)
      have hjt : ¬(j = t) := fun he => hnm (he ▸ htmem)
      have hAl : (jobList_add jl j).links =
          setNext (setPrev jl.links j (some t)) t (some j) := by
        simp [jobList_add, htl]
      have hAj : (jobList_add jl j).links j = ⟨some t, none⟩ := by
        rw [hAl]
        simp [setNext, setPrev, hjt, hfresh]
      have hR : (jobList_remove (jobList_add jl j) j).links =
          setNext (jobList_add jl j).links t none := by
        simp [jobList_remove, hAj]
      intro k hk
      rw [hR, hAl]
      by_cases hkt : k = t
      · subst hkt
        have hnext : (jl.links k).next = none :=
          segTo_last_next h.1 (h.2.1 ▸ htl)
        refine jobNode_ext ?_ ?_
        · simp [setNext, setPrev, hjt, hk]
        · simp [setNext, hnext]
      · simp [setNext, setPrev, hkt, hk]

/-- C9: when thread creation fails during submission (non-zero creation
status, executor not shut down, allocations fine), the job is removed from
the job list again — head, tail, size and all other jobs' links are exactly
as before the submission and the chain invariant still holds — the job and
its future are freed, the creation status is propagated, a null future is
returned, no thread is created, and the executor (shutdown flag still
false) remains usable. -/
theorem executor_submit_thread_fail (ex : Executor) (l : List Nat)
    (j fid : Nat) (ts : Int) (hsd : ex.isShutdown = false) (hts : ts ≠ 0)
    (hok : chainOK ex.jobList l)
    (hfresh : ex.jobList.links j = ⟨none, none⟩) (hnm : j ∉ l) :
    (executor_submit ex true true j fid ts).future = none ∧
      (executor_submit ex true true j fid ts).status = ts ∧
      (executor_submit ex true true j fid ts).threadCreated = false ∧
      (executor_submit ex true true j fid ts).jobFreed = true ∧
      (executor_submit ex true true j fid ts).futureFreed = true ∧
      (executor_submit ex true true j fid ts).ex.isShutdown = false ∧
      (executor_submit ex true true j fid ts).ex.jobList.head =
        ex.jobList.head ∧
      (executor_submit ex true true j fid ts).ex.jobList.tail =
        ex.jobList.tail ∧
      jobList_size (executor_submit ex true true j fid ts).ex.jobList =
        jobList_size ex.jobList ∧
      (∀ k, k ≠ j →
        (executor_submit ex true true j fid ts).ex.jobList.links k =
          ex.jobList.links k) ∧
      chainOK (executor_submit ex true true j fid ts).ex.jobList l := by
  have hsub : executor_submit ex true true j fid ts =
      ⟨⟨jobList_remove (jobList_add ex.jobList j) j, false⟩, none, ts,
        false, true, true⟩ := by
    simp [executor_submit, executor_submitJob, hsd, hts]
  obtain ⟨hh, ht2, hs2, hl2, hok2⟩ := jobList_add_remove hok hfresh hnm
  rw [hsub]
  exact ⟨rfl, rfl, rfl, rfl, rfl, rfl, hh, ht2, hs2, hl2, hok2⟩

/-- C9 witness: a failed thread creation (status 11) on a concrete fresh
executor. -/
theorem executor_submit_thread_fail_witness :
    (executor_submit executor_new true true 1 5 11).future = none ∧
      (executor_submit executor_new true true 1 5 11).status = 11 ∧
      (executor_submit executor_new true true 1 5 11).threadCreated =
        false ∧
      (executor_submit executor_new true true 1 5 11).jobFreed = true ∧
      (executor_submit executor_new true true 1 5 11).futureFreed = true ∧
      (executor_submit executor_new true true 1 5 11).ex.isShutdown =
        false ∧
      (executor_submit executor_new true true 1 5 11).ex.jobList.head =
        executor_new.jobList.head ∧
      (executor_submit executor_new true true 1 5 11).ex.jobList.tail =
        executor_new.jobList.tail ∧
      jobList_size (executor_submit executor_new true true 1 5 11).ex.jobList =
        jobList_size executor_new.jobList ∧
      (∀ k, k ≠ 1 →
        (executor_submit executor_new true true 1 5 11).ex.jobList.links k =
          executor_new.jobList.links k) ∧
      chainOK (executor_submit executor_new true true 1 5 11).ex.jobList [] :=
  executor_submit_thread_fail executor_new [] 1 5 11 rfl (by decide)
    chainOK_new rfl (by decide)

/-- Observable executor/future states along the tail of `job_run`
(Executor.c lines 216-246): the state on entry, the state after
`executor_remove`, and the state after `future_setResult`. The job-local
mutations in between touch neither the job list nor the future. -/
def jobRunTrace (run : Nat → Int × Option Nat) (self : Nat) (ex : Executor)
    (fut : Future) (j : Nat) (job : Job) : List (Executor × Future) :=
  let rr := job_run run self job
  let ex1 := executor_remove ex j
  [(ex, fut), (ex1, fut),
    (ex1, future_setResult fut rr.status rr.result rr.canceledFlag)]

/-- C5: along the worker-thread body, removal of the job from the job list
strictly precedes publication of the result into the future — the observed
(membership, published) pairs are (true,false), (false,false), (false,true)
— and at every point of the trace where the future holds a result, the job
is no longer reachable in the job list, is not counted by `executor_size`
(which counts exactly the remaining chain), and is not visited by
`jobList_cancelAll`. -/
theorem job_removal_precedes_publication (run : Nat → Int × Option Nat)
    (self : Nat) (ex : Executor) (fut : Future) (j : Nat) (job : Job)
    (l : List Nat) (fc : Nat → Int) (hok : chainOK ex.jobList l)
    (hm : j ∈ l) (hf : fut.result = none) :
    ((jobRunTrace run self ex fut j job).map
        (fun s => (decide (j ∈ chainList s.1.jobList), s.2.result.isSome)) =
      [(true, false), (false, false), (false, true)]) ∧
      (∀ s ∈ jobRunTrace run self ex fut j job, s.2.result.isSome = true →
        j ∉ chainList s.1.jobList ∧
          executor_size s.1 = (chainList s.1.jobList).length ∧
          j ∉ (jobList_cancelAll fc s.1.jobList).2) := by
  have hcl : chainList ex.jobList = l := chainList_eq hok
  have hrem : chainOK (jobList_remove ex.jobList j) (l.erase j) :=
    chainOK_remove hok hm
  have hcl1 : chainList (jobList_remove ex.jobList j) = l.erase j :=
    chainList_eq hrem
  have hjne : j ∉ l.erase j := hok.2.2.2.not_mem_erase
  have hca : jobList_cancelAll fc (jobList_remove ex.jobList j) =
      (firstNonzero ((l.erase j).map fc), l.erase j) :=
    cancelAllAux_of_seg hrem.1 (jobList_remove ex.jobList j).size
      (le_of_eq hrem.2.2.1.symm)
  constructor
  · simp [jobRunTrace, executor_remove, future_setResult, hf, hcl, hcl1,
      hm, hjne]
  · intro s hs hpub
    simp only [jobRunTrace, List.mem_cons, List.mem_singleton,
      List.not_mem_nil, or_false] at hs
    rcases hs with h0 | h1 | h2
    · rw [h0] at hpub
      simp [hf] at hpub
    · rw [h1] at hpub
      simp [executor_remove, hf] at hpub
    · rw [h2]
      refine ⟨by simp [executor_remove, hcl1, hjne], ?_, ?_⟩
      · show executor_size (executor_remove ex j) =
          (chainList (executor_remove ex j).jobList).length
        simp only [executor_size, executor_remove, jobList_size, hcl1]
        exact hrem.2.2.1
      · show j ∉ (jobList_cancelAll fc
          (executor_remove ex j).jobList).2
        simp only [executor_remove]
        rw [hca]
        exact hjne

/-- C5 witness: the ordering theorem on a concrete executor holding the
single job 1. -/
theorem job_removal_precedes_publication_witness :
    ((jobRunTrace runZero 7 ⟨jobList_add jobList_new 1, false⟩ ⟨none⟩ 1
        ⟨JOB_INITIALIZED, false, 0, 0⟩).map
        (fun s => (decide (1 ∈ chainList s.1.jobList), s.2.result.isSome)) =
      [(true, false), (false, false), (false, true)]) ∧
      (∀ s ∈ jobRunTrace runZero 7 ⟨jobList_add jobList_new 1, false⟩ ⟨none⟩
          1 ⟨JOB_INITIALIZED, false, 0, 0⟩,
        s.2.result.isSome = true →
          1 ∉ chainList s.1.jobList ∧
            executor_size s.1 = (chainList s.1.jobList).length ∧
            1 ∉ (jobList_cancelAll (haltZero 0) s.1.jobList).2) := by
  exact job_removal_precedes_publication runZero 7
    ⟨jobList_add jobList_new 1, false⟩ ⟨none⟩ 1
    ⟨JOB_INITIALIZED, false, 0, 0⟩ [1] (haltZero 0) (by decide) (by decide)
    rfl
